import Mathlib

/-!
# The scheduling daemon of `injob` (`daemon.go`)

A shallow embedding of `Daemon` and its operations, followed by the properties
proved about them.

Modelling conventions.

* Go pointers `*JobEntry` are addresses (`Ptr`) into a store of entries
  (`Heap`); "in-place mutation" of an entry is an update of the store at its
  address. The job list `[]*JobEntry` is a list of addresses.
* `int64` values are integers; the one `int64` addition the gate performs is
  wrapped explicitly (`wrap64`).
* A Go `map[string]int64` read by key is a function `String → Option Int`; a
  Go map that is iterated (`Spec().Conditions`) is the list of its pairs in
  the order the iteration yields them.
* `time.Now()` is a parameter of the operation that reads it.
* The model is sequential: the two mutexes are not represented, and
  `go j.exec(ctx)` is recorded as a launch of `j` (the list of launched
  entries is the result of a tick).
* Code of the package that is outside `daemon.go` (the entry's own commit
  step, the recurrence matcher, the time formatter) is collected in `Collab`
  and taken as a parameter.
-/

namespace injob

/-! ## Data model -/

/-- Address of a `JobEntry` object. -/
abbrev Ptr := Nat

/-- Reference to a recurrence-state object (`*Schedule`); `none` is `nil`. -/
abbrev SchedRef := Nat

/-- Modelled from the spec: the action constants (`ActionStart`, ...) are
declared outside `daemon.go`; the spec gives the type as the enum
{Start, Stop}. -/
inductive Action where
  | ActionStart
  | ActionStop
  deriving DecidableEq, Repr

/-- Modelled from the spec: the status constants of an execution log
(`StatusOK`, ...) are declared outside `daemon.go`; the spec gives
status ∈ {OK, Error}. -/
inductive LogStatus where
  | StatusOK
  | StatusErr
  deriving DecidableEq, Repr

/-- What `j.job.Spec()` exposes: the job name and the declared conditions
(condition name, threshold in milliseconds), in iteration order. -/
structure JobSpec where
  Name : String
  Conditions : List (String × Int)
  deriving DecidableEq, Repr

/-- The most recent execution log, as read by `BriefReport`. -/
structure JobLog where
  Created : Int
  Updated : Int
  Status : LogStatus
  Message : String
  deriving DecidableEq, Repr

/-- The record behind `j.Status`: `ExecNum` and the result of `LastLog()`
(`none` is `nil`). -/
structure JobStatus where
  ExecNum : Int
  LastLog : Option JobLog
  deriving DecidableEq, Repr

/-- The fields of `JobEntry` that `daemon.go` reads or writes. -/
structure JobEntry where
  job : JobSpec
  action : Action
  sch : Option SchedRef
  Status : JobStatus
  deriving DecidableEq, Repr

/-- The store of `JobEntry` objects. -/
abbrev Heap := Ptr → JobEntry

/-- In-place write of the object at address `p`. -/
def Heap.set (h : Heap) (p : Ptr) (e : JobEntry) : Heap :=
  fun q => if q = p then e else h q

/-- The condition registry `map[string]int64`. -/
abbrev Conditions := String → Option Int

/-- The struct `Daemon` (lines 23-30), without its two mutexes. -/
structure Daemon where
  jobs : List Ptr
  running : Bool
  conditions : Conditions
  stop : Bool

/-- Program state: the entry objects and the daemon that points at them. -/
structure State where
  heap : Heap
  it : Daemon

/-- Modelled from the spec: the collaborators of `daemon.go` that live in
other files of the package. `entryCommit` is the effect of `JobEntry.Commit`
on its receiver (it returns the receiver); the spec describes it as the step
that finalizes the entry's own internal state, and the job specification as
read-only, which is `entryCommit_job`. `Hit j st` is `j.Schedule().Hit(st)`,
`NextTime` is `j.sch.NextTime()`, `Format sec nsec layout` is
`time.Unix(sec, nsec).Format(layout)` and `scheduleTime` the function of that
name. -/
structure Collab where
  entryCommit : JobEntry → JobEntry
  entryCommit_job : ∀ e, (entryCommit e).job = e.job
  Hit : JobEntry → Int → Bool
  NextTime : Option SchedRef → Int
  Format : Int → Int → String → String
  scheduleTime : Int → Int

/-- Two's complement wrap of an integer to `int64`. -/
def wrap64 (x : Int) : Int :=
  (x + 9223372036854775808) % 18446744073709551616 - 9223372036854775808

/-- Range of `int64`. -/
def isInt64 (x : Int) : Prop :=
  -9223372036854775808 ≤ x ∧ x ≤ 9223372036854775807

instance (x : Int) : Decidable (isInt64 x) := by
  unfold isInt64; infer_instance

/-! ## Operations -/

/-- `NewDaemon` (lines 32-39): empty job list, empty registry, both flags
false. The error result is always `nil`. -/
def NewDaemon : Daemon :=
  { jobs := [], running := false, conditions := fun _ => none, stop := false }

/-- Body of the `if` at lines 47-53, for the matching list element `v` and the
candidate `j`; the result is the new store and the returned pointer. -/
def commitMatched (c : Collab) (heap : Heap) (v j : Ptr) : Heap × Ptr :=
  -- v.action = ActionStart
  let h1 := heap.set v { heap v with action := Action.ActionStart }
  -- if j.sch != nil { v.sch = j.sch }
  let h2 := if (h1 j).sch ≠ none then h1.set v { h1 v with sch := (h1 j).sch } else h1
  -- return v.Commit()
  (h2.set v (c.entryCommit (h2 v)), v)

/-- The `for _, v := range it.jobs` loop of `Commit` (lines 46-54): `some` is
the `return` inside the loop, `none` is falling out of the loop. -/
def commitLoop (c : Collab) (heap : Heap) (j : Ptr) : List Ptr → Option (Heap × Ptr)
  | [] => none
  | v :: vs =>
    if (heap v).job.Name = (heap j).job.Name then
      some (commitMatched c heap v j)
    else
      commitLoop c heap j vs

/-- `Daemon.Commit` (lines 41-59). -/
def Daemon.Commit (c : Collab) (s : State) (j : Ptr) : State × Ptr :=
  match commitLoop c s.heap j s.it.jobs with
  | some (heap, v) => ({ s with heap := heap }, v)
  | none =>
    -- it.jobs = append(it.jobs, j); return j.Commit()
    ({ heap := s.heap.set j (c.entryCommit (s.heap j)),
       it := { s.it with jobs := s.it.jobs ++ [j] } }, j)

/-- The `for c, v := range Conditions` loop of `conditionAllow` (lines 72-86)
together with the final `return false`; `tn` is the clock reading. -/
def conditionLoop (conds : Conditions) (tn : Int) : List (String × Int) → Bool
  | [] => false
  | (c, v) :: _ =>
    match conds c with
    | none => false
    | some t =>
      if v = -1 ∨ wrap64 (t + v) ≥ tn then true
      else false -- break, then return false

/-- `Daemon.conditionAllow` (lines 61-87); `tn` is
`time.Now().UnixNano() / 1e6`. -/
def Daemon.conditionAllow (it : Daemon) (j : JobEntry) (tn : Int) : Bool :=
  if j.job.Conditions.length = 0 then true
  else conditionLoop it.conditions tn j.job.Conditions

/-- `Daemon.Stop` (lines 89-92); the sleep has no effect on the state. -/
def Daemon.Stop (it : Daemon) : Daemon :=
  { it with stop := true }

/-- The inner loop of `Start` (lines 116-127) from its `i`-th iteration on:
the entries launched, in order. `clock k` is what `time.Now()` gives inside
the `conditionAllow` call of iteration `k`, `st` is the schedule time. -/
def dispatchLoop (c : Collab) (s : State) (clock : Nat → Int) (st : Int) :
    Nat → List Ptr → List Ptr
  | _, [] => []
  | i, j :: js =>
    if !s.it.conditionAllow (s.heap j) (clock i) then
      dispatchLoop c s clock st (i + 1) js -- continue
    else if !c.Hit (s.heap j) st then
      dispatchLoop c s clock st (i + 1) js -- continue
    else
      j :: dispatchLoop c s clock st (i + 1) js -- go j.exec(ctx)

/-- One iteration of the tick loop of `Start` (lines 113-127): `tn` is the
tick read from the ticker channel. -/
def tick (c : Collab) (s : State) (clock : Nat → Int) (tn : Int) : List Ptr :=
  dispatchLoop c s clock (c.scheduleTime tn) 0 s.it.jobs

/-- `DaemonBriefReportJob` (lines 131-134). -/
structure DaemonBriefReportJob where
  Name : String
  Message : String
  deriving DecidableEq, Repr

/-- `DaemonBriefReport` (lines 136-138). -/
structure DaemonBriefReport where
  Jobs : List DaemonBriefReportJob
  deriving DecidableEq, Repr

/-- Lines 146-162 of `BriefReport`: the message string of one entry. -/
def briefMessage (c : Collab) (j : JobEntry) : String :=
  let str := "exec " ++ toString j.Status.ExecNum ++ " times"
  let str :=
    match j.Status.LastLog with
    | some log =>
      let str := str ++ ", last at "
        ++ c.Format (Int.tdiv log.Created 1000) (wrap64 (Int.tmod log.Created 1000 * 1000000))
            "2006-01-02 15:04:05.999"
        ++ " in " ++ toString (wrap64 (log.Updated - log.Created)) ++ " ms"
      if log.Status = LogStatus.StatusOK then
        str ++ ", status ok"
      else
        let str := str ++ ", status err"
        if log.Message ≠ "" then str ++ ": " ++ log.Message else str
    | none => str
  let next := c.NextTime j.sch
  if next > 0 then
    str ++ ", next " ++ c.Format (Int.tdiv next 1000) 0 "2006-01-02 15:04:05"
  else str

/-- The loop of `BriefReport` (lines 142-167). -/
def briefLoop (c : Collab) (heap : Heap) : List Ptr → List DaemonBriefReportJob
  | [] => []
  | j :: js =>
    if (heap j).action ≠ Action.ActionStart then
      briefLoop c heap js -- continue
    else
      { Name := (heap j).job.Name, Message := briefMessage c (heap j) } :: briefLoop c heap js

/-- `Daemon.BriefReport` (lines 140-169): the state is only read. -/
def Daemon.BriefReport (c : Collab) (s : State) : DaemonBriefReport :=
  { Jobs := briefLoop c s.heap s.it.jobs }

/-- `Daemon.conditionSet` (lines 171-175). -/
def Daemon.conditionSet (it : Daemon) (name : String) (v : Int) : Daemon :=
  { it with conditions := fun k => if k = name then some v else it.conditions k }

/-- `Daemon.conditionDel` (lines 177-181). -/
def Daemon.conditionDel (it : Daemon) (name : String) : Daemon :=
  { it with conditions := fun k => if k = name then none else it.conditions k }

/-- The operations of the daemon that a caller may interleave with `Commit`. -/
inductive Op where
  | commit (j : Ptr)
  | conditionSet (name : String) (v : Int)
  | conditionDel (name : String)
  | briefReport

/-- Effect of one operation on the program state (results are dropped;
`BriefReport` only reads the state). -/
def step (c : Collab) (s : State) : Op → State
  | Op.commit j => (Daemon.Commit c s j).1
  | Op.conditionSet name v => { s with it := s.it.conditionSet name v }
  | Op.conditionDel name => { s with it := s.it.conditionDel name }
  | Op.briefReport => s

/-- A sequence of operations, run from left to right. -/
def run (c : Collab) (s : State) (ops : List Op) : State :=
  ops.foldl (step c) s

/-- The job names of the job list, in list order. -/
def jobNames (s : State) : List String :=
  s.it.jobs.map (fun p => (s.heap p).job.Name)

/-- The entry handed to the entry commit step by a matching `Commit`. -/
def assigned (heap : Heap) (v j : Ptr) : JobEntry :=
  { heap v with
    action := Action.ActionStart
    sch := if (heap j).sch ≠ none then (heap j).sch else (heap v).sch }

/-- Collaborators that do nothing, for evaluating the operations on examples:
the entry commit step leaves the entry as it is and every recurrence hits on
every tick. -/
def idCollab : Collab :=
  { entryCommit := fun e => e
    entryCommit_job := fun _ => rfl
    Hit := fun _ _ => true
    NextTime := fun _ => 0
    Format := fun _ _ _ => ""
    scheduleTime := fun t => t }

/-- An entry with the given name and conditions, action `Stop`, no recurrence
state and no execution so far. -/
def mkEntry (name : String) (conds : List (String × Int)) : JobEntry :=
  { job := { Name := name, Conditions := conds }
    action := Action.ActionStop
    sch := none
    Status := { ExecNum := 0, LastLog := none } }

/-! ## The call of `Start` -/

/-- Where a call of `Start` stands: at the loop condition `for !it.stop`
(line 111), blocked on the ticker at `tn := <-tr.C` (line 113), or returned. -/
inductive Pc where
  | check
  | wait
  | done
  deriving DecidableEq, Repr

/-- A call of `Start` in progress: the program state, the position of the
call, and for every tick the call has evaluated so far the entries it
launched, oldest first. -/
structure Run where
  s : State
  pc : Pc
  ticks : List (List Ptr)

/-- Lines 94-102 of `Start`: return at once when `running`, else set `running`
and go to the loop. -/
def startEntry (s : State) : Run :=
  if s.it.running then
    { s := s, pc := Pc.done, ticks := [] }
  else
    { s := { s with it := { s.it with running := true } }, pc := Pc.check, ticks := [] }

/-- One step of the loop of `Start` (lines 111-128): at the loop condition the
stop flag is read and the call returns or goes on to wait for the ticker; at
the ticker the tick `tn` is received and evaluated, and the call is back at the
loop condition. The launches are recorded and not waited for. -/
def loopStep (c : Collab) (r : Run) (clock : Nat → Int) (tn : Int) : Run :=
  match r.pc with
  | Pc.check => if r.s.it.stop then { r with pc := Pc.done } else { r with pc := Pc.wait }
  | Pc.wait => { r with pc := Pc.check, ticks := r.ticks ++ [tick c r.s clock tn] }
  | Pc.done => r

/-- What happens next while a call of `Start` is in progress: the call takes
its next step (`clock` and `tn` are used when that step is a tick), or another
goroutine calls `Stop`, one of the operations of `Op`, or `Start`. -/
inductive Event where
  | loop (clock : Nat → Int) (tn : Int)
  | stop
  | op (o : Op)
  | start

/-- Whether the event is a step of the call itself. -/
def Event.isLoop : Event → Bool
  | Event.loop _ _ => true
  | _ => false

/-- Effect of one event on a call in progress. Another call of `Start` acts on
the shared state through its entry (lines 94-102). -/
def Run.step (c : Collab) (r : Run) : Event → Run
  | Event.loop clock tn => loopStep c r clock tn
  | Event.stop => { r with s := { r.s with it := r.s.it.Stop } }
  | Event.op o => { r with s := injob.step c r.s o }
  | Event.start => { r with s := (startEntry r.s).s }

/-- A sequence of events, from left to right. -/
def Run.exec (c : Collab) (r : Run) (es : List Event) : Run :=
  es.foldl (Run.step c) r

/-- `Daemon.Start` (lines 94-129) under the interleaving `es`: the entry, then
the events in order. -/
def Daemon.Start (c : Collab) (s : State) (es : List Event) : Run :=
  Run.exec c (startEntry s) es

/-! ## The reference composition of the report message -/

/-- The message of a report row as the specification words it, with the two
time formatters `fmtLast` (of the creation time of the last log) and `fmtNext`
(of the next scheduled time) as opaque functions: "exec N times"; when a last
log exists ", last at F in D ms" and then ", status ok" for status OK,
otherwise ", status err" with ": M" appended exactly when the log message M is
non-empty; when the next time is positive ", next F". `D` is the `int64`
difference `Updated - Created`. -/
def briefMessageSpec (fmtLast fmtNext : Int → String) (execNum : Int)
    (lastLog : Option JobLog) (next : Int) : String :=
  let head := "exec " ++ toString execNum ++ " times"
  let last :=
    match lastLog with
    | none => ""
    | some log =>
      ", last at " ++ fmtLast log.Created ++ " in "
        ++ toString (wrap64 (log.Updated - log.Created)) ++ " ms"
        ++ (if log.Status = LogStatus.StatusOK then ", status ok"
            else ", status err" ++ (if log.Message = "" then "" else ": " ++ log.Message))
  let tail := if next > 0 then ", next " ++ fmtNext next else ""
  head ++ last ++ tail

/-! ## Lock events -/

/-- The lock operations on `it.mu` and `it.cmu` and the accesses to `it.jobs`
and `it.conditions` that the functions of `daemon.go` perform. -/
inductive Ev where
  | muLock
  | muUnlock
  | cmuLock
  | cmuUnlock
  | cmuRLock
  | cmuRUnlock
  | jobsRead
  | jobsWrite
  | condRead
  | condWrite
  deriving DecidableEq, Repr

/-- Events of `Commit` (lines 43-58): lock, the scan of `it.jobs`, the append
when the scan finds nothing, the deferred unlock. -/
def commitEvents (c : Collab) (s : State) (j : Ptr) : List Ev :=
  [Ev.muLock, Ev.jobsRead]
    ++ (match commitLoop c s.heap j s.it.jobs with
        | some _ => []
        | none => [Ev.jobsRead, Ev.jobsWrite])
    ++ [Ev.muUnlock]

/-- Events of `conditionAllow` (lines 63-86): none when the job declares no
condition, else the read lock around the one registry lookup. -/
def conditionAllowEvents (j : JobEntry) : List Ev :=
  if j.job.Conditions.length = 0 then []
  else [Ev.cmuRLock, Ev.condRead, Ev.cmuRUnlock]

/-- Events of `conditionSet` (lines 172-174). -/
def conditionSetEvents : List Ev :=
  [Ev.cmuLock, Ev.condWrite, Ev.cmuUnlock]

/-- Events of `conditionDel` (lines 178-180). -/
def conditionDelEvents : List Ev :=
  [Ev.cmuLock, Ev.condWrite, Ev.cmuUnlock]

/-- Events of the entry of `Start` (lines 96-102): `it.mu` is taken and
released on both branches. -/
def startEntryEvents : List Ev :=
  [Ev.muLock, Ev.muUnlock]

/-- Events of one tick of `Start` (lines 116-127): the `range it.jobs`, then
for each entry its `conditionAllow`. -/
def tickEvents (s : State) : List Ev :=
  Ev.jobsRead :: (s.it.jobs.map (fun j => conditionAllowEvents (s.heap j))).flatten

/-- Events of `BriefReport` (lines 141-168): the `range it.jobs`. -/
def briefReportEvents : List Ev :=
  [Ev.jobsRead]

/-- Walks a sequence of events with the locks held so far (`mu`, `cmu`) and
checks that `it.jobs` is accessed only while `it.mu` is held and
`it.conditions` only while `it.cmu` is held. -/
def guarded : Bool → Bool → List Ev → Bool
  | _, _, [] => true
  | mu, cmu, e :: es =>
    match e with
    | Ev.muLock => guarded true cmu es
    | Ev.muUnlock => guarded false cmu es
    | Ev.cmuLock => guarded mu true es
    | Ev.cmuRLock => guarded mu true es
    | Ev.cmuUnlock => guarded mu false es
    | Ev.cmuRUnlock => guarded mu false es
    | Ev.jobsRead => mu && guarded mu cmu es
    | Ev.jobsWrite => mu && guarded mu cmu es
    | Ev.condRead => cmu && guarded mu cmu es
    | Ev.condWrite => cmu && guarded mu cmu es

/-- Walks a sequence of events and checks that the two locks are never held
together. -/
def neverBoth : Bool → Bool → List Ev → Bool
  | mu, cmu, [] => !(mu && cmu)
  | mu, cmu, e :: es =>
    !(mu && cmu) &&
    match e with
    | Ev.muLock => neverBoth true cmu es
    | Ev.muUnlock => neverBoth false cmu es
    | Ev.cmuLock => neverBoth mu true es
    | Ev.cmuRLock => neverBoth mu true es
    | Ev.cmuUnlock => neverBoth mu false es
    | Ev.cmuRUnlock => neverBoth mu false es
    | _ => neverBoth mu cmu es

/-- Collaborators with visible output, for evaluating the report on examples:
the time formatter prints its layout, seconds and nanoseconds, and the next
time of a recurrence object is its reference number in seconds (0 for `nil`). -/
def showCollab : Collab :=
  { entryCommit := fun e => e
    entryCommit_job := fun _ => rfl
    Hit := fun _ _ => true
    NextTime := fun sch =>
      match sch with
      | some r => (r : Int) * 1000
      | none => 0
    Format := fun sec nsec layout => layout ++ "@" ++ toString sec ++ "+" ++ toString nsec
    scheduleTime := fun t => t }

/-- Three entry objects for evaluating the report: at 0 job "a", started, 3
executions, last log failed with a message, recurrence object 9; at 1 job "b",
stopped; elsewhere job "c", started, last log OK (its message is not shown), no
recurrence object. -/
def reportHeap : Heap := fun p =>
  if p = 0 then
    { job := { Name := "a", Conditions := [] }
      action := Action.ActionStart
      sch := some 9
      Status := { ExecNum := 3
                  LastLog := some { Created := 1500, Updated := 1507,
                                    Status := LogStatus.StatusErr, Message := "boom" } } }
  else if p = 1 then
    { mkEntry "b" [] with
      Status := { ExecNum := 5
                  LastLog := some { Created := 10, Updated := 20,
                                    Status := LogStatus.StatusErr, Message := "" } } }
  else
    { job := { Name := "c", Conditions := [] }
      action := Action.ActionStart
      sch := none
      Status := { ExecNum := 0
                  LastLog := some { Created := 2000, Updated := 2000,
                                    Status := LogStatus.StatusOK, Message := "unseen" } } }

/-! ## Lemmas on `Commit` -/

theorem Heap.set_same (h : Heap) (p : Ptr) (e : JobEntry) : h.set p e p = e := by
  simp [Heap.set]

theorem Heap.set_other (h : Heap) (p q : Ptr) (e : JobEntry) (hq : q ≠ p) :
    h.set p e q = h q := by
  simp [Heap.set, hq]

theorem commitMatched_heap (c : Collab) (heap : Heap) (v j : Ptr) :
    (commitMatched c heap v j).1 = heap.set v (c.entryCommit (assigned heap v j)) := by
  funext q
  by_cases hq : q = v
  · subst hq
    by_cases hj : j = q
    · subst hj
      by_cases hs : (heap j).sch = none <;> simp [commitMatched, Heap.set, assigned, hs]
    · by_cases hs : (heap j).sch = none <;> simp [commitMatched, Heap.set, assigned, hs, hj]
  · simp only [commitMatched]
    split_ifs <;> simp [Heap.set_other _ _ _ _ hq]

theorem commitMatched_ptr (c : Collab) (heap : Heap) (v j : Ptr) :
    (commitMatched c heap v j).2 = v := rfl

theorem commitLoop_none (c : Collab) (heap : Heap) (j : Ptr) (vs : List Ptr)
    (h : ∀ v ∈ vs, (heap v).job.Name ≠ (heap j).job.Name) :
    commitLoop c heap j vs = none := by
  induction vs with
  | nil => rfl
  | cons v vs ih =>
    have hv := h v (List.mem_cons_self _ _)
    simp only [commitLoop, hv, if_false]
    exact ih (fun u hu => h u (List.mem_cons_of_mem _ hu))

theorem commitLoop_first (c : Collab) (heap : Heap) (j : Ptr) (pre : List Ptr) (v : Ptr)
    (post : List Ptr) (hpre : ∀ u ∈ pre, (heap u).job.Name ≠ (heap j).job.Name)
    (hv : (heap v).job.Name = (heap j).job.Name) :
    commitLoop c heap j (pre ++ v :: post) = some (commitMatched c heap v j) := by
  induction pre with
  | nil => simp [commitLoop, hv]
  | cons u us ih =>
    have hu := hpre u (List.mem_cons_self _ _)
    simp only [List.cons_append, commitLoop, hu, if_false]
    exact ih (fun w hw => hpre w (List.mem_cons_of_mem _ hw))

/-- A list with an element of the wanted name splits at the first such element. -/
theorem split_first (heap : Heap) (n : String) (vs : List Ptr)
    (h : ∃ v ∈ vs, (heap v).job.Name = n) :
    ∃ pre v post, vs = pre ++ v :: post ∧ (∀ u ∈ pre, (heap u).job.Name ≠ n) ∧
      (heap v).job.Name = n := by
  induction vs with
  | nil => simp at h
  | cons w ws ih =>
    by_cases hw : (heap w).job.Name = n
    · exact ⟨[], w, ws, rfl, by simp, hw⟩
    · obtain ⟨v, hv, hvn⟩ := h
      have hv2 : v ∈ ws := by
        rcases List.mem_cons.mp hv with h1 | h1
        · subst h1; exact absurd hvn hw
        · exact h1
      obtain ⟨pre, x, post, hsplit, hpre, hx⟩ := ih ⟨v, hv2, hvn⟩
      refine ⟨w :: pre, x, post, by simp [hsplit], ?_, hx⟩
      intro u hu
      rcases List.mem_cons.mp hu with h1 | h1
      · subst h1; exact hw
      · exact hpre u h1

theorem Commit_found (c : Collab) (s : State) (j : Ptr) (pre : List Ptr) (v : Ptr)
    (post : List Ptr) (hjobs : s.it.jobs = pre ++ v :: post)
    (hpre : ∀ u ∈ pre, (s.heap u).job.Name ≠ (s.heap j).job.Name)
    (hv : (s.heap v).job.Name = (s.heap j).job.Name) :
    Daemon.Commit c s j =
      ({ s with heap := s.heap.set v (c.entryCommit (assigned s.heap v j)) }, v) := by
  have h := commitLoop_first c s.heap j pre v post hpre hv
  rw [← hjobs] at h
  have h2 : commitMatched c s.heap v j
      = (s.heap.set v (c.entryCommit (assigned s.heap v j)), v) :=
    Prod.ext (commitMatched_heap c s.heap v j) rfl
  simp only [Daemon.Commit, h, h2]

theorem Commit_fresh (c : Collab) (s : State) (j : Ptr)
    (h : ∀ v ∈ s.it.jobs, (s.heap v).job.Name ≠ (s.heap j).job.Name) :
    Daemon.Commit c s j =
      ({ heap := s.heap.set j (c.entryCommit (s.heap j)),
         it := { s.it with jobs := s.it.jobs ++ [j] } }, j) := by
  simp only [Daemon.Commit, commitLoop_none c s.heap j s.it.jobs h]

/-- Either the candidate's name is in the list and `Commit` works on the first
entry that has it, or it is nowhere in the list and the candidate is appended. -/
theorem Commit_cases (c : Collab) (s : State) (j : Ptr) :
    (∃ pre v post, s.it.jobs = pre ++ v :: post ∧
        (∀ u ∈ pre, (s.heap u).job.Name ≠ (s.heap j).job.Name) ∧
        (s.heap v).job.Name = (s.heap j).job.Name ∧
        Daemon.Commit c s j =
          ({ s with heap := s.heap.set v (c.entryCommit (assigned s.heap v j)) }, v)) ∨
    ((∀ v ∈ s.it.jobs, (s.heap v).job.Name ≠ (s.heap j).job.Name) ∧
        Daemon.Commit c s j =
          ({ heap := s.heap.set j (c.entryCommit (s.heap j)),
             it := { s.it with jobs := s.it.jobs ++ [j] } }, j)) := by
  by_cases h : ∃ v ∈ s.it.jobs, (s.heap v).job.Name = (s.heap j).job.Name
  · obtain ⟨pre, v, post, hsplit, hpre, hv⟩ := split_first s.heap _ s.it.jobs h
    exact Or.inl ⟨pre, v, post, hsplit, hpre, hv, Commit_found c s j pre v post hsplit hpre hv⟩
  · have h2 : ∀ v ∈ s.it.jobs, (s.heap v).job.Name ≠ (s.heap j).job.Name :=
      fun v hv hn => h ⟨v, hv, hn⟩
    exact Or.inr ⟨h2, Commit_fresh c s j h2⟩

theorem set_entryCommit_job (c : Collab) (heap : Heap) (v : Ptr) (e : JobEntry)
    (he : e.job = (heap v).job) (p : Ptr) :
    (heap.set v (c.entryCommit e) p).job = (heap p).job := by
  by_cases hp : p = v
  · subst hp
    rw [Heap.set_same, c.entryCommit_job, he]
  · rw [Heap.set_other _ _ _ _ hp]

/-- `Commit` leaves the job specification of every entry as it was. -/
theorem Commit_job (c : Collab) (s : State) (j p : Ptr) :
    ((Daemon.Commit c s j).1.heap p).job = (s.heap p).job := by
  rcases Commit_cases c s j with ⟨_, v, _, _, _, _, h⟩ | ⟨_, h⟩
  · rw [h]
    exact set_entryCommit_job c s.heap v (assigned s.heap v j) rfl p
  · rw [h]
    exact set_entryCommit_job c s.heap j (s.heap j) rfl p

theorem step_job (c : Collab) (s : State) (op : Op) (p : Ptr) :
    ((step c s op).heap p).job = (s.heap p).job := by
  cases op with
  | commit j => exact Commit_job c s j p
  | conditionSet name v => rfl
  | conditionDel name => rfl
  | briefReport => rfl

theorem run_snoc (c : Collab) (s : State) (ops : List Op) (op : Op) :
    run c s (ops ++ [op]) = step c (run c s ops) op := by
  simp [run, List.foldl_append]

theorem run_job (c : Collab) (s : State) (ops : List Op) (p : Ptr) :
    ((run c s ops).heap p).job = (s.heap p).job := by
  induction ops using List.reverseRecOn with
  | nil => rfl
  | append_singleton ops op ih => rw [run_snoc, step_job, ih]

theorem jobNames_congr (s t : State) (hj : t.it.jobs = s.it.jobs)
    (hn : ∀ p, (t.heap p).job = (s.heap p).job) : jobNames t = jobNames s := by
  simp [jobNames, hj, hn]

/-- The names in the job list after `Commit`: unchanged when the candidate's
name was there, extended by it when it was not. -/
theorem Commit_names (c : Collab) (s : State) (j : Ptr) :
    ((s.heap j).job.Name ∈ jobNames s ∧
        jobNames (Daemon.Commit c s j).1 = jobNames s) ∨
    ((s.heap j).job.Name ∉ jobNames s ∧
        jobNames (Daemon.Commit c s j).1 = jobNames s ++ [(s.heap j).job.Name]) := by
  have hjob := Commit_job c s j
  rcases Commit_cases c s j with ⟨pre, v, post, hsplit, _, hv, h⟩ | ⟨hno, h⟩
  · left
    constructor
    · simp only [jobNames, List.mem_map]
      exact ⟨v, by simp [hsplit], hv⟩
    · exact jobNames_congr s _ (by rw [h]) hjob
  · right
    constructor
    · simp only [jobNames, List.mem_map, not_exists, not_and]
      exact fun v hv => hno v hv
    · have hjobs : (Daemon.Commit c s j).1.it.jobs = s.it.jobs ++ [j] := by rw [h]
      simp only [jobNames, hjobs, List.map_append, List.map_cons, List.map_nil, hjob]

theorem step_names (c : Collab) (s : State) (op : Op) :
    jobNames (step c s op) = jobNames s ∨
    ∃ n, n ∉ jobNames s ∧ jobNames (step c s op) = jobNames s ++ [n] := by
  cases op with
  | commit j =>
    rcases Commit_names c s j with ⟨_, h⟩ | ⟨hn, h⟩
    · exact Or.inl h
    · exact Or.inr ⟨_, hn, h⟩
  | conditionSet name v => exact Or.inl rfl
  | conditionDel name => exact Or.inl rfl
  | briefReport => exact Or.inl rfl

theorem step_names_nodup (c : Collab) (s : State) (op : Op) (h : (jobNames s).Nodup) :
    (jobNames (step c s op)).Nodup := by
  rcases step_names c s op with h1 | ⟨n, hn, h1⟩
  · rw [h1]; exact h
  · rw [h1]
    exact List.nodup_append.mpr ⟨h, List.nodup_singleton n, by
      intro a ha hb
      rw [List.mem_singleton] at hb
      subst hb
      exact hn ha⟩

theorem step_names_mem (c : Collab) (s : State) (op : Op) (n : String)
    (h : n ∈ jobNames s) : n ∈ jobNames (step c s op) := by
  rcases step_names c s op with h1 | ⟨m, _, h1⟩
  · rw [h1]; exact h
  · rw [h1]; exact List.mem_append_left _ h

theorem run_names_nodup (c : Collab) (s : State) (ops : List Op) (h : (jobNames s).Nodup) :
    (jobNames (run c s ops)).Nodup := by
  induction ops using List.reverseRecOn with
  | nil => exact h
  | append_singleton ops op ih => rw [run_snoc]; exact step_names_nodup c _ op ih

/-- A name that was committed is in the job list from then on. -/
theorem run_names_mem (c : Collab) (s : State) (ops : List Op) (j : Ptr)
    (h : Op.commit j ∈ ops) : (s.heap j).job.Name ∈ jobNames (run c s ops) := by
  induction ops using List.reverseRecOn with
  | nil => simp at h
  | append_singleton ops op ih =>
    rw [run_snoc]
    rcases List.mem_append.mp h with h1 | h1
    · exact step_names_mem c _ op _ (ih h1)
    · rw [List.mem_singleton] at h1
      subst h1
      have hname : ((run c s ops).heap j).job.Name = (s.heap j).job.Name := by
        rw [run_job]
      rcases Commit_names c (run c s ops) j with ⟨hin, heq⟩ | ⟨_, heq⟩
      · show (s.heap j).job.Name ∈ jobNames (Daemon.Commit c (run c s ops) j).1
        rw [heq, ← hname]; exact hin
      · show (s.heap j).job.Name ∈ jobNames (Daemon.Commit c (run c s ops) j).1
        rw [heq, hname]; simp

/-! ## Commit and deduplication -/

/-- C1. In every state reached from `NewDaemon` by a sequence of `Commit`,
`conditionSet`, `conditionDel` and `BriefReport` calls, no entry changed its
job name, every job name occurs at most once in the job list, and a name that
was committed (once or many times) occurs exactly once. -/
theorem commit_dedup_invariant (c : Collab) (heap : Heap) (ops : List Op) :
    (∀ p, ((run c ⟨heap, NewDaemon⟩ ops).heap p).job.Name = (heap p).job.Name) ∧
    (∀ n, (jobNames (run c ⟨heap, NewDaemon⟩ ops)).count n ≤ 1) ∧
    (∀ j, Op.commit j ∈ ops →
      (jobNames (run c ⟨heap, NewDaemon⟩ ops)).count (heap j).job.Name = 1) := by
  have hnd : (jobNames (run c ⟨heap, NewDaemon⟩ ops)).Nodup :=
    run_names_nodup c _ ops (by simp [jobNames, NewDaemon])
  refine ⟨fun p => by rw [run_job], fun n => List.nodup_iff_count_le_one.mp hnd n, ?_⟩
  intro j hj
  exact List.count_eq_one_of_mem hnd (run_names_mem c ⟨heap, NewDaemon⟩ ops j hj)

/-- C1, on an example: three commits of the name "a" through two different
candidates, with a registry write and a report in between. -/
theorem commit_dedup_invariant_witness :
    Op.commit 1 ∈ [Op.commit 0, Op.conditionSet "x" 5, Op.commit 1, Op.briefReport, Op.commit 0] ∧
    (jobNames (run idCollab ⟨fun _ => mkEntry "a" [], NewDaemon⟩
      [Op.commit 0, Op.conditionSet "x" 5, Op.commit 1, Op.briefReport, Op.commit 0])).count
        "a" = 1 :=
  ⟨by simp, (commit_dedup_invariant idCollab (fun _ => mkEntry "a" []) _).2.2 1 (by simp)⟩

/-- C2, as stated, fails when the candidate is the registered entry itself:
after `Commit` of the object at address 0, a second `Commit` of the same
object finds its own name in the list and returns the candidate. -/
theorem commit_existing_returns_candidate :
    ((Daemon.Commit idCollab ⟨fun _ => mkEntry "a" [], NewDaemon⟩ 0).1.heap 0).job.Name ∈
      jobNames (Daemon.Commit idCollab ⟨fun _ => mkEntry "a" [], NewDaemon⟩ 0).1 ∧
    (Daemon.Commit idCollab
      (Daemon.Commit idCollab ⟨fun _ => mkEntry "a" [], NewDaemon⟩ 0).1 0).2 = 0 := by
  decide

/-- C2 (amended). `Commit` of a candidate `j` whose job name occurs in the job
list: the daemon record (job list, registry, flags) is unchanged; with `v` the
first entry of that name, the object at `v` becomes the result of the entry
commit step on the old object with action `Start` (and the recurrence of C3),
no other object changes, and `v` is returned. The returned reference is the
candidate only when the candidate is that same object; a candidate that is not
a member of the list is never returned. -/
theorem commit_existing (c : Collab) (s : State) (j : Ptr)
    (h : (s.heap j).job.Name ∈ jobNames s) :
    ∃ pre v post, s.it.jobs = pre ++ v :: post ∧
      (∀ u ∈ pre, (s.heap u).job.Name ≠ (s.heap j).job.Name) ∧
      (s.heap v).job.Name = (s.heap j).job.Name ∧
      (Daemon.Commit c s j).1.it = s.it ∧
      (∃ e, e.action = Action.ActionStart ∧ e.job = (s.heap v).job ∧
        e.Status = (s.heap v).Status ∧ (Daemon.Commit c s j).1.heap v = c.entryCommit e) ∧
      (∀ p, p ≠ v → (Daemon.Commit c s j).1.heap p = s.heap p) ∧
      (Daemon.Commit c s j).2 = v ∧
      ((Daemon.Commit c s j).2 = j ↔ j = v) ∧
      (j ∉ s.it.jobs → (Daemon.Commit c s j).2 ≠ j) := by
  rcases Commit_cases c s j with ⟨pre, v, post, hsplit, hpre, hv, hc⟩ | ⟨hno, _⟩
  · refine ⟨pre, v, post, hsplit, hpre, hv, by rw [hc], ?_, ?_, by rw [hc], ?_, ?_⟩
    · exact ⟨assigned s.heap v j, rfl, rfl, rfl, by rw [hc]; exact Heap.set_same _ _ _⟩
    · intro p hp
      rw [hc]
      exact Heap.set_other _ _ _ _ hp
    · rw [hc]
      exact ⟨fun h1 => h1.symm, fun h1 => h1.symm⟩
    · intro hj
      rw [hc]
      intro hvj
      apply hj
      rw [hsplit]
      have : v = j := hvj
      subst this
      simp
  · exfalso
    simp only [jobNames, List.mem_map] at h
    obtain ⟨v, hv, hn⟩ := h
    exact hno v hv hn

/-- C2 (amended), on an example: a second candidate (address 1) of the
registered name "a" is not what `Commit` returns. -/
theorem commit_existing_witness :
    ((Daemon.Commit idCollab ⟨fun _ => mkEntry "a" [], NewDaemon⟩ 0).1.heap 1).job.Name ∈
      jobNames (Daemon.Commit idCollab ⟨fun _ => mkEntry "a" [], NewDaemon⟩ 0).1 ∧
    (Daemon.Commit idCollab (Daemon.Commit idCollab ⟨fun _ => mkEntry "a" [], NewDaemon⟩ 0).1
      1).2 ≠ 1 := by
  obtain ⟨_, _, _, _, _, _, _, _, _, _, _, h⟩ :=
    commit_existing idCollab (Daemon.Commit idCollab ⟨fun _ => mkEntry "a" [], NewDaemon⟩ 0).1 1
      (by decide)
  exact ⟨by decide, h (by decide)⟩

/-- C3. A `Commit` whose name matches an existing entry hands to the entry
commit step the matched entry with the candidate's recurrence state when that
is non-null and with its own previous recurrence state when the candidate's is
null (so a null candidate recurrence overwrites nothing); and a second
`Commit` of the same name with a non-null recurrence `r` hands over the entry
with recurrence `r`, returns the reference the first `Commit` returned and
leaves the job list as the first `Commit` left it. -/
theorem commit_recurrence_rule (c : Collab) (s : State) (j : Ptr) :
    ((s.heap j).job.Name ∈ jobNames s →
      ∃ e, (Daemon.Commit c s j).1.heap (Daemon.Commit c s j).2 = c.entryCommit e ∧
        ((s.heap j).sch ≠ none → e.sch = (s.heap j).sch) ∧
        ((s.heap j).sch = none → e.sch = (s.heap (Daemon.Commit c s j).2).sch)) ∧
    (∀ (k : Ptr) (r : SchedRef),
      (s.heap k).job.Name = (s.heap j).job.Name →
      ((Daemon.Commit c s j).1.heap k).sch = some r →
      ∃ e, (Daemon.Commit c (Daemon.Commit c s j).1 k).1.heap (Daemon.Commit c s j).2
            = c.entryCommit e ∧
        e.sch = some r ∧
        (Daemon.Commit c (Daemon.Commit c s j).1 k).2 = (Daemon.Commit c s j).2 ∧
        (Daemon.Commit c (Daemon.Commit c s j).1 k).1.it.jobs = (Daemon.Commit c s j).1.it.jobs ∧
        (Daemon.Commit c (Daemon.Commit c s j).1 k).1.it.jobs.length
          = (Daemon.Commit c s j).1.it.jobs.length) := by
  constructor
  · intro h
    rcases Commit_cases c s j with ⟨pre, v, post, hsplit, hpre, hv, hc⟩ | ⟨hno, _⟩
    · refine ⟨assigned s.heap v j, by rw [hc]; exact Heap.set_same _ _ _, ?_, ?_⟩
      · intro hs; simp [assigned, hs]
      · intro hs; rw [hc]; simp [assigned, hs]
    · exfalso
      simp only [jobNames, List.mem_map] at h
      obtain ⟨v, hv, hn⟩ := h
      exact hno v hv hn
  · intro k r hk hr
    -- the first commit leaves a list whose first entry of that name is what it returned
    have hfirst : ∃ pre post, (Daemon.Commit c s j).1.it.jobs
          = pre ++ (Daemon.Commit c s j).2 :: post ∧
        (∀ u ∈ pre, (s.heap u).job.Name ≠ (s.heap j).job.Name) ∧
        (s.heap (Daemon.Commit c s j).2).job.Name = (s.heap j).job.Name := by
      rcases Commit_cases c s j with ⟨pre, v, post, hsplit, hpre, hv, hc⟩ | ⟨hno, hc⟩
      · exact ⟨pre, post, by rw [hc]; exact hsplit, hpre, by rw [hc]; exact hv⟩
      · exact ⟨s.it.jobs, [], by rw [hc], hno, by rw [hc]⟩
    obtain ⟨pre, post, hsplit, hpre, hv⟩ := hfirst
    have hname : ∀ p, ((Daemon.Commit c s j).1.heap p).job.Name = (s.heap p).job.Name :=
      fun p => by rw [Commit_job]
    have hc := Commit_found c (Daemon.Commit c s j).1 k pre (Daemon.Commit c s j).2 post hsplit
      (by intro u hu; rw [hname, hname, hk]; exact hpre u hu)
      (by rw [hname, hname, hk]; exact hv)
    refine ⟨assigned (Daemon.Commit c s j).1.heap (Daemon.Commit c s j).2 k, ?_, ?_, ?_, ?_, ?_⟩
    · rw [hc]; exact Heap.set_same _ _ _
    · simp [assigned, hr]
    · rw [hc]
    · rw [hc]
    · rw [hc]

/-- C3, on an example: job "C" committed through the object at 0 and then
through the object at 1, whose recurrence is the object 7. -/
theorem commit_recurrence_rule_witness :
    ∃ e, (Daemon.Commit idCollab (Daemon.Commit idCollab
        ⟨fun p => { mkEntry "C" [] with sch := if p = 1 then some 7 else some 3 }, NewDaemon⟩
          0).1 1).1.heap
        (Daemon.Commit idCollab
          ⟨fun p => { mkEntry "C" [] with sch := if p = 1 then some 7 else some 3 }, NewDaemon⟩
          0).2 = idCollab.entryCommit e ∧ e.sch = some 7 := by
  obtain ⟨e, h1, h2, _⟩ := (commit_recurrence_rule idCollab
    ⟨fun p => { mkEntry "C" [] with sch := if p = 1 then some 7 else some 3 }, NewDaemon⟩ 0).2
    1 7 rfl (by decide)
  exact ⟨e, h1, h2⟩

/-- C4. `Commit` of a candidate whose job name occurs nowhere in the job list:
the new list is the old list followed by the candidate, one longer, with every
earlier entry at its position; the object of the candidate becomes the result
of its entry commit step and no other object changes; registry and flags are
unchanged; the candidate is returned. -/
theorem commit_fresh_appends (c : Collab) (s : State) (j : Ptr)
    (h : (s.heap j).job.Name ∉ jobNames s) :
    (Daemon.Commit c s j).1.it.jobs = s.it.jobs ++ [j] ∧
    (Daemon.Commit c s j).1.it.jobs.length = s.it.jobs.length + 1 ∧
    (∀ i, i < s.it.jobs.length → (Daemon.Commit c s j).1.it.jobs[i]? = s.it.jobs[i]?) ∧
    (Daemon.Commit c s j).1.it.jobs.getLast? = some j ∧
    (Daemon.Commit c s j).1.heap j = c.entryCommit (s.heap j) ∧
    (∀ p, p ≠ j → (Daemon.Commit c s j).1.heap p = s.heap p) ∧
    (Daemon.Commit c s j).1.it.conditions = s.it.conditions ∧
    (Daemon.Commit c s j).1.it.running = s.it.running ∧
    (Daemon.Commit c s j).1.it.stop = s.it.stop ∧
    (Daemon.Commit c s j).2 = j := by
  have hno : ∀ v ∈ s.it.jobs, (s.heap v).job.Name ≠ (s.heap j).job.Name := by
    intro v hv hn
    apply h
    simp only [jobNames, List.mem_map]
    exact ⟨v, hv, hn⟩
  rw [Commit_fresh c s j hno]
  refine ⟨rfl, by simp, ?_, by simp, Heap.set_same _ _ _, ?_, rfl, rfl, rfl, rfl⟩
  · intro i hi
    exact List.getElem?_append_left hi
  · intro p hp
    exact Heap.set_other _ _ _ _ hp

/-- C4, on an example: "b" committed after "a". -/
theorem commit_fresh_appends_witness :
    (Daemon.Commit idCollab
      (Daemon.Commit idCollab ⟨fun p => mkEntry (if p = 0 then "a" else "b") [], NewDaemon⟩ 0).1
      1).1.it.jobs = [0] ++ [1] :=
  (commit_fresh_appends idCollab
    (Daemon.Commit idCollab ⟨fun p => mkEntry (if p = 0 then "a" else "b") [], NewDaemon⟩ 0).1
    1 (by decide)).1

/-! ## The tick loop and the condition gate -/

theorem wrap64_of_isInt64 (x : Int) (h : isInt64 x) : wrap64 x = x := by
  unfold isInt64 at h
  unfold wrap64
  omega

/-- The gate of a job that declares the single condition `cn` with threshold `D`. -/
theorem conditionAllow_single (it : Daemon) (j : JobEntry) (cn : String) (D : Int)
    (hj : j.job.Conditions = [(cn, D)]) (tn : Int) :
    it.conditionAllow j tn =
      match it.conditions cn with
      | none => false
      | some t => decide (D = -1 ∨ wrap64 (t + D) ≥ tn) := by
  simp only [Daemon.conditionAllow, hj, conditionLoop]
  cases it.conditions cn with
  | none => simp
  | some t => by_cases h : D = -1 ∨ wrap64 (t + D) ≥ tn <;> simp [h]

/-- The launches of the inner loop started at iteration `i`, as a filter over
the numbered job list. -/
theorem dispatchLoop_eq_filter (c : Collab) (s : State) (clock : Nat → Int) (st : Int)
    (i : Nat) (js : List Ptr) :
    dispatchLoop c s clock st i js =
      ((js.enumFrom i).filter (fun p =>
        s.it.conditionAllow (s.heap p.2) (clock p.1) && c.Hit (s.heap p.2) st)).map Prod.snd := by
  induction js generalizing i with
  | nil => rfl
  | cons j js ih =>
    simp only [dispatchLoop, List.enumFrom_cons, List.filter_cons]
    by_cases h1 : s.it.conditionAllow (s.heap j) (clock i) = true
    · by_cases h2 : c.Hit (s.heap j) st = true
      · simp [h1, h2, ih]
      · simp [h1, h2, ih]
    · simp [h1, ih]

/-- With one clock reading for the whole tick the launches are a plain filter
of the job list. -/
theorem dispatchLoop_const (c : Collab) (s : State) (now st : Int) (i : Nat) (js : List Ptr) :
    dispatchLoop c s (fun _ => now) st i js =
      js.filter (fun j => s.it.conditionAllow (s.heap j) now && c.Hit (s.heap j) st) := by
  induction js generalizing i with
  | nil => rfl
  | cons j js ih =>
    simp only [dispatchLoop, List.filter_cons]
    by_cases h1 : s.it.conditionAllow (s.heap j) now = true
    · by_cases h2 : c.Hit (s.heap j) st = true
      · simp [h1, h2, ih]
      · simp [h1, h2, ih]
    · simp [h1, ih]

/-- An entry is launched exactly when some iteration of the loop meets it with
its gate open at that iteration's clock reading and its recurrence hitting. -/
theorem mem_dispatchLoop (c : Collab) (s : State) (clock : Nat → Int) (st : Int)
    (i : Nat) (js : List Ptr) (p : Ptr) :
    p ∈ dispatchLoop c s clock st i js ↔
      ∃ k, js[k]? = some p ∧ s.it.conditionAllow (s.heap p) (clock (i + k)) = true ∧
        c.Hit (s.heap p) st = true := by
  induction js generalizing i with
  | nil => simp [dispatchLoop]
  | cons j js ih =>
    have hstep : (∃ k, (j :: js)[k]? = some p ∧
          s.it.conditionAllow (s.heap p) (clock (i + k)) = true ∧ c.Hit (s.heap p) st = true) ↔
        (j = p ∧ s.it.conditionAllow (s.heap p) (clock i) = true ∧ c.Hit (s.heap p) st = true) ∨
        (∃ k, js[k]? = some p ∧
          s.it.conditionAllow (s.heap p) (clock (i + 1 + k)) = true ∧
          c.Hit (s.heap p) st = true) := by
      constructor
      · rintro ⟨k, hk, ha, hh⟩
        cases k with
        | zero =>
          left
          simp only [List.getElem?_cons_zero, Option.some.injEq] at hk
          exact ⟨hk, by simpa using ha, hh⟩
        | succ k =>
          right
          simp only [List.getElem?_cons_succ] at hk
          exact ⟨k, hk, by rw [Nat.add_assoc, Nat.add_comm 1 k]; exact ha, hh⟩
      · rintro (⟨hj, ha, hh⟩ | ⟨k, hk, ha, hh⟩)
        · exact ⟨0, by simp [hj], by simpa using ha, hh⟩
        · exact ⟨k + 1, by simpa using hk,
            by rw [Nat.add_assoc, Nat.add_comm 1 k] at ha; exact ha, hh⟩
    rw [hstep, ← ih (i + 1)]
    simp only [dispatchLoop]
    by_cases h1 : s.it.conditionAllow (s.heap j) (clock i) = true
    · by_cases h2 : c.Hit (s.heap j) st = true
      · simp only [h1, h2, Bool.not_true, Bool.false_eq_true, if_false, List.mem_cons]
        constructor
        · rintro (h | h)
          · subst h; exact Or.inl ⟨rfl, h1, h2⟩
          · exact Or.inr h
        · rintro (⟨h, _, _⟩ | h)
          · exact Or.inl h.symm
          · exact Or.inr h
      · simp only [h1, h2, Bool.not_true, Bool.false_eq_true, if_false, Bool.not_false,
          if_true]
        constructor
        · exact fun h => Or.inr h
        · rintro (⟨h, _, hh⟩ | h)
          · subst h; exact absurd hh h2
          · exact h
    · simp only [h1, Bool.not_false, if_true]
      constructor
      · exact fun h => Or.inr h
      · rintro (⟨h, ha, _⟩ | h)
        · subst h; exact absurd ha h1
        · exact h

/-- C5. The entries launched by one iteration of the tick loop, for every
state, clock and schedule time `st`: they are the entries of the job list, in
list order, whose gate passes (at the clock reading of their own iteration)
and whose recurrence hits `st`; with one evaluation time `now` for the whole
tick this is the job list filtered by "gate passes at `now` and `Hit st`", so
an entry of the list is launched if and only if both hold. -/
theorem tick_dispatch_decision (c : Collab) (s : State) (st : Int) :
    (∀ clock tn, tick c s clock tn = dispatchLoop c s clock (c.scheduleTime tn) 0 s.it.jobs) ∧
    (∀ clock, dispatchLoop c s clock st 0 s.it.jobs =
      ((s.it.jobs.enum).filter (fun p =>
        s.it.conditionAllow (s.heap p.2) (clock p.1) && c.Hit (s.heap p.2) st)).map Prod.snd) ∧
    (∀ now, dispatchLoop c s (fun _ => now) st 0 s.it.jobs =
      s.it.jobs.filter (fun j => s.it.conditionAllow (s.heap j) now && c.Hit (s.heap j) st)) ∧
    (∀ now j, j ∈ dispatchLoop c s (fun _ => now) st 0 s.it.jobs ↔
      j ∈ s.it.jobs ∧ s.it.conditionAllow (s.heap j) now = true ∧ c.Hit (s.heap j) st = true) := by
  refine ⟨fun _ _ => rfl, fun clock => ?_, fun now => dispatchLoop_const c s now st 0 _, ?_⟩
  · rw [dispatchLoop_eq_filter]; rfl
  · intro now j
    rw [dispatchLoop_const, List.mem_filter, Bool.and_eq_true]

/-- C6, as stated, fails when the `int64` sum `T + D` overflows: with the
condition asserted at `T` = 1700000000000 ms and the threshold the largest
`int64`, the gate is closed one millisecond later, inside the window. -/
theorem gate_window_overflow :
    isInt64 1700000000000 ∧ isInt64 9223372036854775807 ∧ isInt64 1700000000001 ∧
    (9223372036854775807 : Int) ≠ -1 ∧
    (1700000000000 : Int) ≤ 1700000000001 ∧
    (1700000000001 : Int) ≤ 1700000000000 + 9223372036854775807 ∧
    (NewDaemon.conditionSet "c" 1700000000000).conditions "c" = some 1700000000000 ∧
    (NewDaemon.conditionSet "c" 1700000000000).conditionAllow
      (mkEntry "a" [("c", 9223372036854775807)]) 1700000000001 = false := by
  decide

/-- C6 (amended). For a job that declares exactly one condition `cn` with
threshold `D`, `D` not the sentinel -1, and `T + D` within the `int64` range:
when the registry holds `T` for `cn`, the gate passes exactly for the
evaluation times `now ≤ T + D`, so for every `now` in `[T, T + D]`, and fails
for every `now > T + D`; when the registry has no entry for `cn` the gate fails
for every evaluation time. -/
theorem gate_validity_window (it : Daemon) (j : JobEntry) (cn : String) (D T : Int)
    (hj : j.job.Conditions = [(cn, D)]) (hD : D ≠ -1) (hsum : isInt64 (T + D)) :
    (it.conditions cn = some T →
      (∀ now, it.conditionAllow j now = true ↔ now ≤ T + D) ∧
      (∀ now, T ≤ now → now ≤ T + D → it.conditionAllow j now = true) ∧
      (∀ now, T + D < now → it.conditionAllow j now = false)) ∧
    (it.conditions cn = none → ∀ now, it.conditionAllow j now = false) := by
  have hiff : it.conditions cn = some T →
      ∀ now, it.conditionAllow j now = true ↔ now ≤ T + D := by
    intro hT now
    rw [conditionAllow_single it j cn D hj now, hT]
    simp [hD, wrap64_of_isInt64 _ hsum]
  constructor
  · intro hT
    refine ⟨hiff hT, fun now _ h2 => (hiff hT now).mpr h2, ?_⟩
    intro now hlt
    cases hb : it.conditionAllow j now with
    | false => rfl
    | true =>
      have := (hiff hT now).mp hb
      omega
  · intro hnone now
    rw [conditionAllow_single it j cn D hj now, hnone]

/-- C6 (amended), on an example: asserted at 1000 with threshold 500, the gate
is open at 1500 and closed at 1501. -/
theorem gate_validity_window_witness :
    (NewDaemon.conditionSet "c" 1000).conditionAllow (mkEntry "a" [("c", 500)]) 1500 = true ∧
    (NewDaemon.conditionSet "c" 1000).conditionAllow (mkEntry "a" [("c", 500)]) 1501 = false :=
  ⟨((gate_validity_window (NewDaemon.conditionSet "c" 1000) (mkEntry "a" [("c", 500)]) "c" 500
      1000 rfl (by decide) (by decide)).1 (by decide)).2.1 1500 (by decide) (by decide),
   ((gate_validity_window (NewDaemon.conditionSet "c" 1000) (mkEntry "a" [("c", 500)]) "c" 500
      1000 rfl (by decide) (by decide)).1 (by decide)).2.2 1501 (by decide)⟩

/-- C7, the code at the failing input: the job declares "a" (threshold -1) and
"b" (threshold 1000), the iteration yields "a" first, the registry holds "a"
and has no entry for "b"; the gate passes. -/
theorem gate_passes_with_absent_condition :
    (NewDaemon.conditionSet "a" 0).conditions "b" = none ∧
    (NewDaemon.conditionSet "a" 0).conditionAllow
      (mkEntry "j" [("a", -1), ("b", 1000)]) 5 = true := by
  decide

/-- C8, the code at the failing input: the job list holds one entry, its
action is `Stop`, it declares no condition and its recurrence hits the tick.
The gate passes, the recurrence hits, and the tick launches the entry; the
loop of `BriefReport`, over the same state, skips it. -/
theorem tick_launches_stopped_entry :
    ((fun _ => mkEntry "a" []) 0).action = Action.ActionStop ∧
    ({ NewDaemon with jobs := [0] } : Daemon).conditionAllow (mkEntry "a" []) 0 = true ∧
    idCollab.Hit (mkEntry "a" []) (idCollab.scheduleTime 0) = true ∧
    tick idCollab ⟨fun _ => mkEntry "a" [], { NewDaemon with jobs := [0] }⟩ (fun _ => 0) 0
      = [0] ∧
    (Daemon.BriefReport idCollab
      ⟨fun _ => mkEntry "a" [], { NewDaemon with jobs := [0] }⟩).Jobs = [] := by
  decide

/-- C9. A job that declares no condition passes the gate, for every registry
and every evaluation time. -/
theorem gate_no_conditions (it : Daemon) (j : JobEntry) (now : Int)
    (hj : j.job.Conditions = []) : it.conditionAllow j now = true := by
  simp [Daemon.conditionAllow, hj]

/-- C9, on an example. -/
theorem gate_no_conditions_witness :
    (NewDaemon.conditionSet "x" 3).conditionAllow (mkEntry "a" []) 99 = true :=
  gate_no_conditions (NewDaemon.conditionSet "x" 3) (mkEntry "a" []) 99 rfl

/-- C10. For an entry `p` of the job list that declares exactly one condition
`cn` with threshold -1: its gate passes if and only if the registry has an
entry for `cn`, whatever the stored timestamp and the evaluation time; and when
its recurrence hits every schedule time, it is launched on a tick if and only
if the registry has an entry for `cn`: on no tick while `cn` is absent (never
asserted, or cleared by `conditionDel`), on every tick after
`conditionSet cn v`. -/
theorem gate_never_expires (c : Collab) (s : State) (p : Ptr) (cn : String)
    (hp : p ∈ s.it.jobs) (hc : (s.heap p).job.Conditions = [(cn, -1)])
    (hh : ∀ st, c.Hit (s.heap p) st = true) :
    (∀ (it : Daemon) now, it.conditionAllow (s.heap p) now = (it.conditions cn).isSome) ∧
    (∀ clock tn, p ∈ tick c s clock tn ↔ (s.it.conditions cn).isSome = true) ∧
    (∀ clock tn, s.it.conditions cn = none → p ∉ tick c s clock tn) ∧
    (∀ v clock tn, p ∈ tick c { s with it := s.it.conditionSet cn v } clock tn) ∧
    (∀ clock tn, p ∉ tick c { s with it := s.it.conditionDel cn } clock tn) := by
  have hgate : ∀ (it : Daemon) now,
      it.conditionAllow (s.heap p) now = (it.conditions cn).isSome := by
    intro it now
    rw [conditionAllow_single it (s.heap p) cn (-1) hc now]
    cases it.conditions cn <;> simp
  have htick : ∀ (it : Daemon) clock tn, it.jobs = s.it.jobs →
      (p ∈ tick c ⟨s.heap, it⟩ clock tn ↔ (it.conditions cn).isSome = true) := by
    intro it clock tn hjobs
    unfold tick
    rw [mem_dispatchLoop]
    simp only [hgate, hh, and_true, hjobs]
    constructor
    · rintro ⟨_, _, h⟩; exact h
    · intro h
      obtain ⟨k, hk, hget⟩ := List.getElem_of_mem hp
      exact ⟨k, by rw [List.getElem?_eq_getElem hk, hget], h⟩
  refine ⟨hgate, fun clock tn => htick s.it clock tn rfl, ?_, ?_, ?_⟩
  · intro clock tn hnone
    rw [htick s.it clock tn rfl, hnone]
    simp
  · intro v clock tn
    rw [htick (s.it.conditionSet cn v) clock tn rfl]
    simp [Daemon.conditionSet]
  · intro clock tn
    rw [htick (s.it.conditionDel cn) clock tn rfl]
    simp [Daemon.conditionDel]

/-- C10, on an example: job "B" with condition "ready" of threshold -1 is not
launched from the empty registry. -/
theorem gate_never_expires_witness :
    0 ∉ tick idCollab ⟨fun _ => mkEntry "B" [("ready", -1)], { NewDaemon with jobs := [0] }⟩
      (fun _ => 0) 0 :=
  (gate_never_expires idCollab
    ⟨fun _ => mkEntry "B" [("ready", -1)], { NewDaemon with jobs := [0] }⟩ 0 "ready"
    (by decide) rfl (fun _ => rfl)).2.2.1 (fun _ => 0) 0 rfl

/-! ## The brief report -/

theorem briefLoop_eq_filter_map (c : Collab) (heap : Heap) (js : List Ptr) :
    briefLoop c heap js =
      (js.filter (fun j => decide ((heap j).action = Action.ActionStart))).map
        (fun j => { Name := (heap j).job.Name, Message := briefMessage c (heap j) }) := by
  induction js with
  | nil => rfl
  | cons j js ih =>
    by_cases h : (heap j).action = Action.ActionStart
    · simp [briefLoop, h, ih]
    · simp [briefLoop, h, ih]

theorem briefMessage_eq_spec (c : Collab) (j : JobEntry) :
    briefMessage c j =
      briefMessageSpec
        (fun ms => c.Format (Int.tdiv ms 1000) (wrap64 (Int.tmod ms 1000 * 1000000))
          "2006-01-02 15:04:05.999")
        (fun t => c.Format (Int.tdiv t 1000) 0 "2006-01-02 15:04:05")
        j.Status.ExecNum j.Status.LastLog (c.NextTime j.sch) := by
  unfold briefMessage briefMessageSpec
  cases hlog : j.Status.LastLog with
  | none =>
    by_cases hn : c.NextTime j.sch > 0 <;>
      simp only [hn, if_true, if_false, String.append_assoc, String.append_empty]
  | some log =>
    by_cases hn : c.NextTime j.sch > 0 <;>
      by_cases hs : log.Status = LogStatus.StatusOK <;>
        by_cases hm : log.Message = "" <;>
          simp only [hn, hs, hm, if_true, if_false, ne_eq, not_true_eq_false, not_false_eq_true,
            String.append_assoc, String.append_empty]

/-- C11. The rows of the brief report are the entries of the job list whose
action is `Start`, one row per such entry and in list order, each row carrying
that entry's job name (and its message); entries with another action give no
row. -/
theorem brief_report_rows (c : Collab) (s : State) :
    (Daemon.BriefReport c s).Jobs =
      (s.it.jobs.filter (fun j => decide ((s.heap j).action = Action.ActionStart))).map
        (fun j => { Name := (s.heap j).job.Name, Message := briefMessage c (s.heap j) }) ∧
    (Daemon.BriefReport c s).Jobs.map (fun row => row.Name) =
      (s.it.jobs.filter (fun j => decide ((s.heap j).action = Action.ActionStart))).map
        (fun j => (s.heap j).job.Name) ∧
    (Daemon.BriefReport c s).Jobs.length =
      (s.it.jobs.filter (fun j => decide ((s.heap j).action = Action.ActionStart))).length := by
  have h : (Daemon.BriefReport c s).Jobs =
      (s.it.jobs.filter (fun j => decide ((s.heap j).action = Action.ActionStart))).map
        (fun j => { Name := (s.heap j).job.Name, Message := briefMessage c (s.heap j) }) :=
    briefLoop_eq_filter_map c s.heap s.it.jobs
  refine ⟨h, ?_, ?_⟩
  · rw [h, List.map_map]; rfl
  · rw [h, List.length_map]

/-- C11, on an example: of three entries the second has action `Stop`; the
report has the rows of the first and the third, in that order. -/
theorem brief_report_rows_witness :
    (Daemon.BriefReport idCollab
      ⟨fun p => { mkEntry (if p = 0 then "a" else if p = 1 then "b" else "c") [] with
          action := if p = 1 then Action.ActionStop else Action.ActionStart },
        { NewDaemon with jobs := [0, 1, 2] }⟩).Jobs.map (fun row => row.Name) = ["a", "c"] :=
  (brief_report_rows idCollab
    ⟨fun p => { mkEntry (if p = 0 then "a" else if p = 1 then "b" else "c") [] with
        action := if p = 1 then Action.ActionStop else Action.ActionStart },
      { NewDaemon with jobs := [0, 1, 2] }⟩).2.1.trans (by decide)

/-- C12. The brief report is the list of the started entries, in order, each
row carrying the job name and, as its message, the reference composition
`briefMessageSpec` of the entry's `ExecNum`, last log and `NextTime()`, with the
two time formats of the code as the formatters; the message computed by
lines 146-162 equals that composition for every entry; every row of the report
comes from a started entry in this way; with no last log and `NextTime() ≤ 0`
the message is exactly "exec N times"; and the number printed before " ms" is
`Updated - Created` whenever that difference is an `int64`. -/
theorem brief_message_composition (c : Collab) (s : State) :
    ((Daemon.BriefReport c s).Jobs =
      (s.it.jobs.filter (fun j => decide ((s.heap j).action = Action.ActionStart))).map
        (fun j =>
          { Name := (s.heap j).job.Name
            Message :=
              briefMessageSpec
                (fun ms => c.Format (Int.tdiv ms 1000) (wrap64 (Int.tmod ms 1000 * 1000000))
                  "2006-01-02 15:04:05.999")
                (fun t => c.Format (Int.tdiv t 1000) 0 "2006-01-02 15:04:05")
                (s.heap j).Status.ExecNum (s.heap j).Status.LastLog
                (c.NextTime (s.heap j).sch) })) ∧
    (∀ j : JobEntry,
      briefMessage c j =
        briefMessageSpec
          (fun ms => c.Format (Int.tdiv ms 1000) (wrap64 (Int.tmod ms 1000 * 1000000))
            "2006-01-02 15:04:05.999")
          (fun t => c.Format (Int.tdiv t 1000) 0 "2006-01-02 15:04:05")
          j.Status.ExecNum j.Status.LastLog (c.NextTime j.sch)) ∧
    (∀ row ∈ (Daemon.BriefReport c s).Jobs, ∃ j ∈ s.it.jobs,
      (s.heap j).action = Action.ActionStart ∧ row.Name = (s.heap j).job.Name ∧
      row.Message =
        briefMessageSpec
          (fun ms => c.Format (Int.tdiv ms 1000) (wrap64 (Int.tmod ms 1000 * 1000000))
            "2006-01-02 15:04:05.999")
          (fun t => c.Format (Int.tdiv t 1000) 0 "2006-01-02 15:04:05")
          (s.heap j).Status.ExecNum (s.heap j).Status.LastLog (c.NextTime (s.heap j).sch)) ∧
    (∀ (fmtLast fmtNext : Int → String) (n next : Int), next ≤ 0 →
      briefMessageSpec fmtLast fmtNext n none next = "exec " ++ toString n ++ " times") ∧
    (∀ j : JobEntry, j.Status.LastLog = none → c.NextTime j.sch ≤ 0 →
      briefMessage c j = "exec " ++ toString j.Status.ExecNum ++ " times") ∧
    (∀ log : JobLog, isInt64 (log.Updated - log.Created) →
      wrap64 (log.Updated - log.Created) = log.Updated - log.Created) := by
  have h : (Daemon.BriefReport c s).Jobs =
      (s.it.jobs.filter (fun j => decide ((s.heap j).action = Action.ActionStart))).map
        (fun j => { Name := (s.heap j).job.Name, Message := briefMessage c (s.heap j) }) :=
    briefLoop_eq_filter_map c s.heap s.it.jobs
  refine ⟨?_, fun j => briefMessage_eq_spec c j, ?_, ?_, ?_, fun log h => wrap64_of_isInt64 _ h⟩
  · rw [h]
    apply List.map_congr_left
    intro j _
    rw [briefMessage_eq_spec c (s.heap j)]
  · intro row hrow
    rw [h, List.mem_map] at hrow
    obtain ⟨j, hj, hrow⟩ := hrow
    rw [List.mem_filter] at hj
    refine ⟨j, hj.1, by simpa using hj.2, ?_, ?_⟩
    · rw [← hrow]
    · rw [← hrow]
      exact briefMessage_eq_spec c (s.heap j)
  · intro fmtLast fmtNext n next hnext
    have hn : ¬ next > 0 := by omega
    simp [briefMessageSpec, hn]
  · intro j hlog hnext
    have hn : ¬ c.NextTime j.sch > 0 := by omega
    simp [briefMessage, hlog, hn]

/-- C12, on an example: the report of the three entries of `reportHeap`. The
first row shows a failed last log with its message and a next time, the
stopped entry has no row, the last row shows an OK last log (whose message is
not printed) and no next time; the message of the stopped entry, computed on
its own, shows a failed last log without a message. -/
theorem brief_message_composition_witness :
    (Daemon.BriefReport showCollab ⟨reportHeap, { NewDaemon with jobs := [0, 1, 2] }⟩).Jobs =
      [{ Name := "a"
         Message := "exec 3 times, last at 2006-01-02 15:04:05.999@1+500000000 in 7 ms, "
           ++ "status err: boom, next 2006-01-02 15:04:05@9+0" },
       { Name := "c"
         Message := "exec 0 times, last at 2006-01-02 15:04:05.999@2+0 in 0 ms, status ok" }] ∧
    briefMessage showCollab (reportHeap 1) =
      "exec 5 times, last at 2006-01-02 15:04:05.999@0+10000000 in 10 ms, status err" :=
  ⟨(brief_message_composition showCollab
      ⟨reportHeap, { NewDaemon with jobs := [0, 1, 2] }⟩).1.trans (by decide),
   ((brief_message_composition showCollab
      ⟨reportHeap, { NewDaemon with jobs := [0, 1, 2] }⟩).2.1 (reportHeap 1)).trans (by decide)⟩

/-! ## Lemmas on the call of `Start` -/

/-- `Commit` leaves the registry and the two flags as they were. -/
theorem Commit_flags (c : Collab) (s : State) (j : Ptr) :
    (Daemon.Commit c s j).1.it.running = s.it.running ∧
    (Daemon.Commit c s j).1.it.stop = s.it.stop ∧
    (Daemon.Commit c s j).1.it.conditions = s.it.conditions := by
  rcases Commit_cases c s j with ⟨_, _, _, _, _, _, h⟩ | ⟨_, h⟩ <;> rw [h] <;> exact ⟨rfl, rfl, rfl⟩

theorem step_flags (c : Collab) (s : State) (o : Op) :
    (step c s o).it.running = s.it.running ∧ (step c s o).it.stop = s.it.stop := by
  cases o with
  | commit j => exact ⟨(Commit_flags c s j).1, (Commit_flags c s j).2.1⟩
  | conditionSet name v => exact ⟨rfl, rfl⟩
  | conditionDel name => exact ⟨rfl, rfl⟩
  | briefReport => exact ⟨rfl, rfl⟩

theorem loopStep_state (c : Collab) (r : Run) (clock : Nat → Int) (tn : Int) :
    (loopStep c r clock tn).s = r.s := by
  unfold loopStep
  cases r.pc with
  | check => by_cases h : r.s.it.stop = true <;> simp [h]
  | wait => rfl
  | done => rfl

theorem startEntry_flags (s : State) :
    (startEntry s).s.it.stop = s.it.stop ∧ (startEntry s).s.it.jobs = s.it.jobs ∧
    (startEntry s).s.it.conditions = s.it.conditions ∧ (startEntry s).s.heap = s.heap ∧
    (s.it.running = true → (startEntry s).s = s) ∧
    (startEntry s).s.it.running = true := by
  unfold startEntry
  by_cases h : s.it.running = true
  · simp [h]
  · simp [h]

/-- Neither flag is ever cleared by an event. -/
theorem Run.step_keeps_flags (c : Collab) (r : Run) (e : Event) :
    (r.s.it.running = true → (Run.step c r e).s.it.running = true) ∧
    (r.s.it.stop = true → (Run.step c r e).s.it.stop = true) := by
  cases e with
  | loop clock tn =>
    simp only [Run.step, loopStep_state]
    exact ⟨id, id⟩
  | stop => exact ⟨id, fun _ => rfl⟩
  | op o =>
    simp only [Run.step]
    rw [(injob.step_flags c r.s o).1, (injob.step_flags c r.s o).2]
    exact ⟨id, id⟩
  | start =>
    simp only [Run.step]
    exact ⟨fun _ => (startEntry_flags r.s).2.2.2.2.2, fun h => by rw [(startEntry_flags r.s).1]; exact h⟩

theorem Run.exec_cons (c : Collab) (r : Run) (e : Event) (es : List Event) :
    Run.exec c r (e :: es) = Run.exec c (Run.step c r e) es := rfl

theorem Run.exec_keeps_flags (c : Collab) (r : Run) (es : List Event) :
    (r.s.it.running = true → (Run.exec c r es).s.it.running = true) ∧
    (r.s.it.stop = true → (Run.exec c r es).s.it.stop = true) := by
  induction es generalizing r with
  | nil => exact ⟨id, id⟩
  | cons e es ih =>
    rw [Run.exec_cons]
    exact ⟨fun h => (ih _).1 ((Run.step_keeps_flags c r e).1 h),
      fun h => (ih _).2 ((Run.step_keeps_flags c r e).2 h)⟩

/-- Events of other goroutines leave the position and the ticks of the call. -/
theorem Run.step_other (c : Collab) (r : Run) (e : Event) (he : e.isLoop = false) :
    (Run.step c r e).pc = r.pc ∧ (Run.step c r e).ticks = r.ticks := by
  cases e with
  | loop clock tn => simp [Event.isLoop] at he
  | stop => exact ⟨rfl, rfl⟩
  | op o => exact ⟨rfl, rfl⟩
  | start => exact ⟨rfl, rfl⟩

/-- A call that has returned stays returned and evaluates nothing. -/
theorem Run.exec_done (c : Collab) (r : Run) (es : List Event) (h : r.pc = Pc.done) :
    (Run.exec c r es).pc = Pc.done ∧ (Run.exec c r es).ticks = r.ticks := by
  induction es generalizing r with
  | nil => exact ⟨h, rfl⟩
  | cons e es ih =>
    rw [Run.exec_cons]
    have hstep : (Run.step c r e).pc = Pc.done ∧ (Run.step c r e).ticks = r.ticks := by
      cases e with
      | loop clock tn => simp [Run.step, loopStep, h]
      | stop => exact ⟨h, rfl⟩
      | op o => exact ⟨h, rfl⟩
      | start => exact ⟨h, rfl⟩
    rw [← hstep.2]
    exact ih _ hstep.1

/-- With the stop flag set, a call at the loop condition evaluates no tick and
returns at its next step. -/
theorem Run.exec_check_stopped (c : Collab) (r : Run) (es : List Event)
    (hstop : r.s.it.stop = true) (h : r.pc = Pc.check) :
    (Run.exec c r es).ticks = r.ticks ∧ (Run.exec c r es).pc ≠ Pc.wait ∧
    (1 ≤ es.countP Event.isLoop → (Run.exec c r es).pc = Pc.done) := by
  induction es generalizing r with
  | nil => exact ⟨rfl, by simp [Run.exec, h], by simp⟩
  | cons e es ih =>
    rw [Run.exec_cons]
    cases hl : e.isLoop with
    | true =>
      have hstep : (Run.step c r e).pc = Pc.done ∧ (Run.step c r e).ticks = r.ticks := by
        cases e with
        | loop clock tn => simp [Run.step, loopStep, h, hstop]
        | stop => simp [Event.isLoop] at hl
        | op o => simp [Event.isLoop] at hl
        | start => simp [Event.isLoop] at hl
      have hd := Run.exec_done c _ es hstep.1
      exact ⟨by rw [hd.2, hstep.2], by rw [hd.1]; decide, fun _ => hd.1⟩
    | false =>
      have hstep := Run.step_other c r e hl
      have hs2 := (Run.step_keeps_flags c r e).2 hstop
      have := ih (Run.step c r e) hs2 (by rw [hstep.1]; exact h)
      refine ⟨by rw [this.1, hstep.2], this.2.1, ?_⟩
      intro hc
      apply this.2.2
      simpa [List.countP_cons, hl] using hc

/-- With the stop flag set, a call blocked on the ticker evaluates at most the
tick it is waiting for and returns at its second step. -/
theorem Run.exec_wait_stopped (c : Collab) (r : Run) (es : List Event)
    (hstop : r.s.it.stop = true) (h : r.pc = Pc.wait) :
    (Run.exec c r es).ticks.length ≤ r.ticks.length + 1 ∧
    (2 ≤ es.countP Event.isLoop → (Run.exec c r es).pc = Pc.done) := by
  induction es generalizing r with
  | nil => exact ⟨by simp [Run.exec], by simp⟩
  | cons e es ih =>
    rw [Run.exec_cons]
    cases hl : e.isLoop with
    | true =>
      have hstep : (Run.step c r e).pc = Pc.check ∧
          (Run.step c r e).ticks.length = r.ticks.length + 1 := by
        cases e with
        | loop clock tn => simp [Run.step, loopStep, h]
        | stop => simp [Event.isLoop] at hl
        | op o => simp [Event.isLoop] at hl
        | start => simp [Event.isLoop] at hl
      have hs2 := (Run.step_keeps_flags c r e).2 hstop
      have hc := Run.exec_check_stopped c _ es hs2 hstep.1
      refine ⟨by rw [hc.1, hstep.2], ?_⟩
      intro hcount
      apply hc.2.2
      simp only [List.countP_cons, hl, if_true] at hcount
      omega
    | false =>
      have hstep := Run.step_other c r e hl
      have hs2 := (Run.step_keeps_flags c r e).2 hstop
      have := ih (Run.step c r e) hs2 (by rw [hstep.1]; exact h)
      refine ⟨by rw [← hstep.2]; exact this.1, ?_⟩
      intro hc
      apply this.2
      simpa [List.countP_cons, hl] using hc

/-! ## Start, Stop and the flags -/

/-- C13. `Start` on a daemon whose `running` flag is set returns at once: the
state (entries, job list, registry, both flags) is unchanged and, whatever
happens afterwards, that call evaluates no tick and launches nothing. `Start`
on a daemon that is not running sets `running` and stands at the loop
condition with nothing evaluated yet and everything else unchanged. -/
theorem start_idempotent (c : Collab) (s : State) :
    (s.it.running = true →
      (startEntry s).s = s ∧ (startEntry s).pc = Pc.done ∧ (startEntry s).ticks = [] ∧
      ∀ es, (Daemon.Start c s es).pc = Pc.done ∧ (Daemon.Start c s es).ticks = []) ∧
    (s.it.running = false →
      (startEntry s).s.it.running = true ∧ (startEntry s).pc = Pc.check ∧
      (startEntry s).ticks = [] ∧ (startEntry s).s.heap = s.heap ∧
      (startEntry s).s.it.jobs = s.it.jobs ∧
      (startEntry s).s.it.conditions = s.it.conditions ∧
      (startEntry s).s.it.stop = s.it.stop) := by
  constructor
  · intro h
    have hpc : (startEntry s).pc = Pc.done := by simp [startEntry, h]
    have htk : (startEntry s).ticks = [] := by simp [startEntry, h]
    refine ⟨(startEntry_flags s).2.2.2.2.1 h, hpc, htk, ?_⟩
    intro es
    have hd := Run.exec_done c (startEntry s) es hpc
    exact ⟨hd.1, by rw [← htk]; exact hd.2⟩
  · intro h
    have hf := startEntry_flags s
    exact ⟨hf.2.2.2.2.2, by simp [startEntry, h], by simp [startEntry, h], hf.2.2.2.1,
      hf.2.1, hf.2.2.1, hf.1⟩

/-- C13, on an example: a second `Start` after a first one, with two loop
steps of its own, evaluates nothing. -/
theorem start_idempotent_witness :
    (Daemon.Start idCollab (startEntry ⟨fun _ => mkEntry "a" [], { NewDaemon with jobs := [0] }⟩).s
      [Event.loop (fun _ => 0) 0, Event.loop (fun _ => 0) 1]).ticks = [] :=
  (((start_idempotent idCollab
    (startEntry ⟨fun _ => mkEntry "a" [], { NewDaemon with jobs := [0] }⟩).s).1 rfl).2.2.2
      [Event.loop (fun _ => 0) 0, Event.loop (fun _ => 0) 1]).2

/-- C14. `Stop` sets the stop flag and nothing else. Once the flag is set it
stays set, and a call of `Start` in progress evaluates at most one further
tick, none at all unless it is already blocked on the ticker, and has returned
after at most two further steps of its own, whatever the other goroutines do;
the launches of a tick are recorded, never waited for. A `Start` that finds
the flag set at its first check of the loop condition evaluates no tick. -/
theorem stop_halts_loop (c : Collab) (r : Run) (es : List Event) :
    (r.s.it.Stop.stop = true ∧ r.s.it.Stop.jobs = r.s.it.jobs ∧
      r.s.it.Stop.running = r.s.it.running ∧ r.s.it.Stop.conditions = r.s.it.conditions) ∧
    (Run.step c r Event.stop).s.it.stop = true ∧
    (r.s.it.stop = true →
      (Run.exec c r es).s.it.stop = true ∧
      (Run.exec c r es).ticks.length ≤ r.ticks.length + 1 ∧
      (r.pc ≠ Pc.wait → (Run.exec c r es).ticks = r.ticks) ∧
      (2 ≤ es.countP Event.isLoop → (Run.exec c r es).pc = Pc.done)) ∧
    (∀ s : State, s.it.stop = true → (Daemon.Start c s es).ticks = []) := by
  refine ⟨⟨rfl, rfl, rfl, rfl⟩, rfl, ?_, ?_⟩
  · intro hstop
    refine ⟨(Run.exec_keeps_flags c r es).2 hstop, ?_, ?_, ?_⟩
    · cases hpc : r.pc with
      | check =>
        rw [(Run.exec_check_stopped c r es hstop hpc).1]; omega
      | wait => exact (Run.exec_wait_stopped c r es hstop hpc).1
      | done => rw [(Run.exec_done c r es hpc).2]; omega
    · intro hne
      cases hpc : r.pc with
      | check => exact (Run.exec_check_stopped c r es hstop hpc).1
      | wait => exact absurd hpc hne
      | done => exact (Run.exec_done c r es hpc).2
    · intro hcount
      cases hpc : r.pc with
      | check => exact (Run.exec_check_stopped c r es hstop hpc).2.2 (by omega)
      | wait => exact (Run.exec_wait_stopped c r es hstop hpc).2 hcount
      | done => exact (Run.exec_done c r es hpc).1
  · intro s hstop
    have hs : (startEntry s).s.it.stop = true := by rw [(startEntry_flags s).1]; exact hstop
    by_cases hrun : s.it.running = true
    · have hpc : (startEntry s).pc = Pc.done := by simp [startEntry, hrun]
      have htk : (startEntry s).ticks = [] := by simp [startEntry, hrun]
      show (Run.exec c (startEntry s) es).ticks = []
      rw [(Run.exec_done c _ es hpc).2, htk]
    · have hpc : (startEntry s).pc = Pc.check := by simp [startEntry, hrun]
      have htk : (startEntry s).ticks = [] := by simp [startEntry, hrun]
      show (Run.exec c (startEntry s) es).ticks = []
      rw [(Run.exec_check_stopped c _ es hs hpc).1, htk]

/-- C14, on an example: `Stop` arrives while the call is blocked on the
ticker; the pending tick is evaluated, the next step returns, and the steps
after that evaluate nothing: one tick in all. -/
theorem stop_halts_loop_witness :
    (Daemon.Start idCollab ⟨fun _ => mkEntry "a" [], { NewDaemon with jobs := [0] }⟩
      [Event.loop (fun _ => 0) 0, Event.stop, Event.loop (fun _ => 0) 1,
        Event.loop (fun _ => 0) 2, Event.loop (fun _ => 0) 3]).ticks.length ≤ 0 + 1 ∧
    (Daemon.Start idCollab ⟨fun _ => mkEntry "a" [], { NewDaemon with jobs := [0] }⟩
      [Event.loop (fun _ => 0) 0, Event.stop, Event.loop (fun _ => 0) 1,
        Event.loop (fun _ => 0) 2, Event.loop (fun _ => 0) 3]).pc = Pc.done :=
  ⟨((stop_halts_loop idCollab
      (Run.exec idCollab (startEntry ⟨fun _ => mkEntry "a" [], { NewDaemon with jobs := [0] }⟩)
        [Event.loop (fun _ => 0) 0, Event.stop])
      [Event.loop (fun _ => 0) 1, Event.loop (fun _ => 0) 2, Event.loop (fun _ => 0) 3]).2.2.1
        rfl).2.1,
   ((stop_halts_loop idCollab
      (Run.exec idCollab (startEntry ⟨fun _ => mkEntry "a" [], { NewDaemon with jobs := [0] }⟩)
        [Event.loop (fun _ => 0) 0, Event.stop])
      [Event.loop (fun _ => 0) 1, Event.loop (fun _ => 0) 2, Event.loop (fun _ => 0) 3]).2.2.1
        rfl).2.2.2 (by decide)⟩

/-! ## The registry, the frame of the operations, the locks -/

/-- C15. `conditionSet name v` maps `name` to `v` and `conditionDel name`
leaves no entry for `name`; both agree with the old registry on every other
name and leave the job list, the flags and the entries alone; and deleting a
name that was absent before it was set gives back the original daemon. -/
theorem registry_mutators (c : Collab) (s : State) (name : String) (v : Int) :
    (s.it.conditionSet name v).conditions name = some v ∧
    (∀ k, k ≠ name → (s.it.conditionSet name v).conditions k = s.it.conditions k) ∧
    (s.it.conditionDel name).conditions name = none ∧
    (∀ k, k ≠ name → (s.it.conditionDel name).conditions k = s.it.conditions k) ∧
    (s.it.conditions name = none → (s.it.conditionSet name v).conditionDel name = s.it) ∧
    ((s.it.conditionSet name v).jobs = s.it.jobs ∧
      (s.it.conditionSet name v).running = s.it.running ∧
      (s.it.conditionSet name v).stop = s.it.stop ∧
      (step c s (Op.conditionSet name v)).heap = s.heap) ∧
    ((s.it.conditionDel name).jobs = s.it.jobs ∧
      (s.it.conditionDel name).running = s.it.running ∧
      (s.it.conditionDel name).stop = s.it.stop ∧
      (step c s (Op.conditionDel name)).heap = s.heap) := by
  refine ⟨by simp [Daemon.conditionSet], ?_, by simp [Daemon.conditionDel], ?_, ?_,
    ⟨rfl, rfl, rfl, rfl⟩, ⟨rfl, rfl, rfl, rfl⟩⟩
  · intro k hk
    simp [Daemon.conditionSet, hk]
  · intro k hk
    simp [Daemon.conditionDel, hk]
  · intro hnone
    cases hit : s.it with
    | mk jobs running conditions stop =>
      rw [hit] at hnone
      simp only [Daemon.conditionSet, Daemon.conditionDel, Daemon.mk.injEq, true_and, and_true]
      funext k
      by_cases hk : k = name
      · subst hk
        simp only [if_true]
        exact hnone.symm
      · simp [hk]

/-- C15, on an example: "c" is absent from the new registry, set and deleted. -/
theorem registry_mutators_witness :
    (NewDaemon.conditionSet "c" 7).conditionDel "c" = NewDaemon :=
  (registry_mutators idCollab ⟨fun _ => mkEntry "a" [], NewDaemon⟩ "c" 7).2.2.2.2.1 rfl

/-- C16. Every event other than a `Commit` (`conditionSet`, `conditionDel`,
`BriefReport`, `Stop`, a step of the loop of `Start` with the gate checks of
its tick, the entry of `Start`) leaves the job list exactly as it was;
`BriefReport` leaves the whole state as it was; and `Commit` does change the
list when the candidate's name is new. -/
theorem only_commit_changes_jobs (c : Collab) (r : Run) (e : Event) :
    ((∀ j, e ≠ Event.op (Op.commit j)) → (Run.step c r e).s.it.jobs = r.s.it.jobs) ∧
    (Run.step c r (Event.op Op.briefReport)).s = r.s ∧
    (step c r.s Op.briefReport = r.s) ∧
    (r.s.it.Stop.jobs = r.s.it.jobs) ∧
    (∀ clock tn, (loopStep c r clock tn).s = r.s) ∧
    (∀ j, (r.s.heap j).job.Name ∉ jobNames r.s →
      (Run.step c r (Event.op (Op.commit j))).s.it.jobs ≠ r.s.it.jobs) := by
  refine ⟨?_, rfl, rfl, rfl, fun clock tn => loopStep_state c r clock tn, ?_⟩
  · intro hne
    cases e with
    | loop clock tn => simp only [Run.step, loopStep_state]
    | stop => rfl
    | op o =>
      cases o with
      | commit j => exact absurd rfl (hne j)
      | conditionSet name v => rfl
      | conditionDel name => rfl
      | briefReport => rfl
    | start => exact (startEntry_flags r.s).2.1
  · intro j hj
    have hno : ∀ v ∈ r.s.it.jobs, (r.s.heap v).job.Name ≠ (r.s.heap j).job.Name := by
      intro v hv hn
      apply hj
      simp only [jobNames, List.mem_map]
      exact ⟨v, hv, hn⟩
    have h : (Run.step c r (Event.op (Op.commit j))).s.it.jobs = r.s.it.jobs ++ [j] := by
      show (Daemon.Commit c r.s j).1.it.jobs = r.s.it.jobs ++ [j]
      rw [Commit_fresh c r.s j hno]
    rw [h]
    intro heq
    have := congrArg List.length heq
    simp at this

/-- C16, on an example: a tick of the loop leaves the job list `[0]`. -/
theorem only_commit_changes_jobs_witness :
    (Run.step idCollab ⟨⟨fun _ => mkEntry "a" [], { NewDaemon with jobs := [0] }⟩, Pc.wait, []⟩
      (Event.loop (fun _ => 0) 0)).s.it.jobs = [0] :=
  (only_commit_changes_jobs idCollab
    ⟨⟨fun _ => mkEntry "a" [], { NewDaemon with jobs := [0] }⟩, Pc.wait, []⟩
    (Event.loop (fun _ => 0) 0)).1 (fun j h => by cases h)

theorem guarded_allow_append (e : JobEntry) (rest : List Ev) :
    guarded false false (conditionAllowEvents e ++ rest) = guarded false false rest := by
  unfold conditionAllowEvents
  by_cases h : e.job.Conditions.length = 0 <;> simp [h, guarded]

theorem neverBoth_allow_append (e : JobEntry) (rest : List Ev) :
    neverBoth false false (conditionAllowEvents e ++ rest) = neverBoth false false rest := by
  unfold conditionAllowEvents
  by_cases h : e.job.Conditions.length = 0 <;> simp [h, neverBoth]

theorem neverBoth_allow_flatten (heap : Heap) (js : List Ptr) :
    neverBoth false false (js.map (fun j => conditionAllowEvents (heap j))).flatten = true := by
  induction js with
  | nil => simp [neverBoth]
  | cons j js ih =>
    simp only [List.map_cons, List.flatten_cons]
    rw [neverBoth_allow_append]
    exact ih

/-- C17, the code against the claim. `Commit` reads and writes `it.jobs` with
`it.mu` held, `conditionAllow`, `conditionSet` and `conditionDel` access
`it.conditions` with `it.cmu` held, and no function holds both locks at once;
but the tick of `Start` and `BriefReport` read `it.jobs` with `it.mu` not
held, for every state. -/
theorem lock_discipline (c : Collab) (s : State) (j : Ptr) (e : JobEntry) :
    guarded false false (commitEvents c s j) = true ∧
    guarded false false (conditionAllowEvents e) = true ∧
    guarded false false conditionSetEvents = true ∧
    guarded false false conditionDelEvents = true ∧
    guarded false false startEntryEvents = true ∧
    neverBoth false false (commitEvents c s j) = true ∧
    neverBoth false false (conditionAllowEvents e) = true ∧
    neverBoth false false conditionSetEvents = true ∧
    neverBoth false false conditionDelEvents = true ∧
    neverBoth false false startEntryEvents = true ∧
    neverBoth false false (tickEvents s) = true ∧
    neverBoth false false briefReportEvents = true ∧
    guarded false false (startEntryEvents ++ tickEvents s) = false ∧
    guarded false false (tickEvents s) = false ∧
    guarded false false briefReportEvents = false := by
  refine ⟨?_, ?_, rfl, rfl, rfl, ?_, ?_, rfl, rfl, rfl, ?_, rfl, rfl, rfl, rfl⟩
  · unfold commitEvents
    cases commitLoop c s.heap j s.it.jobs <;> rfl
  · unfold conditionAllowEvents
    by_cases h : e.job.Conditions.length = 0 <;> simp [h, guarded]
  · unfold commitEvents
    cases commitLoop c s.heap j s.it.jobs <;> rfl
  · unfold conditionAllowEvents
    by_cases h : e.job.Conditions.length = 0 <;> simp [h, neverBoth]
  · simp only [tickEvents, neverBoth, Bool.and_self, Bool.not_false, Bool.true_and]
    exact neverBoth_allow_flatten s.heap s.it.jobs

/-- C18. For a job whose iteration yields the condition `cn` with threshold
`v` first, the gate gives what it gives for a job that declares `(cn, v)`
alone: it fails when `cn` is absent from the registry, and with `t` stored for
`cn` it passes exactly when `v` is -1 or the `int64` sum of `t` and `v` is at
least `now` (the plain sum when that is an `int64`); two registries that agree
on `cn` give the same result, whatever they hold for the later conditions. -/
theorem gate_first_condition_only (it : Daemon) (j : JobEntry) (cn : String) (v : Int)
    (rest : List (String × Int)) (now : Int) (hj : j.job.Conditions = (cn, v) :: rest) :
    it.conditionAllow j now =
      it.conditionAllow { j with job := { j.job with Conditions := [(cn, v)] } } now ∧
    (it.conditions cn = none → it.conditionAllow j now = false) ∧
    (∀ t, it.conditions cn = some t →
      (it.conditionAllow j now = true ↔ v = -1 ∨ wrap64 (t + v) ≥ now)) ∧
    (∀ t, it.conditions cn = some t → isInt64 (t + v) →
      (it.conditionAllow j now = true ↔ v = -1 ∨ t + v ≥ now)) ∧
    (∀ it2 : Daemon, it2.conditions cn = it.conditions cn →
      it2.conditionAllow j now = it.conditionAllow j now) := by
  have hform : ∀ d : Daemon, d.conditionAllow j now =
      match d.conditions cn with
      | none => false
      | some t => decide (v = -1 ∨ wrap64 (t + v) ≥ now) := by
    intro d
    simp only [Daemon.conditionAllow, hj, conditionLoop]
    cases d.conditions cn with
    | none => simp
    | some t => by_cases h : v = -1 ∨ wrap64 (t + v) ≥ now <;> simp [h]
  refine ⟨?_, ?_, ?_, ?_, ?_⟩
  · rw [hform it, conditionAllow_single it _ cn v rfl now]
  · intro hnone
    rw [hform it, hnone]
  · intro t ht
    rw [hform it, ht]
    simp
  · intro t ht hsum
    rw [hform it, ht]
    simp [wrap64_of_isInt64 _ hsum]
  · intro it2 h2
    rw [hform it2, hform it, h2]

/-- C18, on an example: "a" is yielded first and present, "b" is absent or
present; the gate passes both times. -/
theorem gate_first_condition_only_witness :
    ((NewDaemon.conditionSet "a" 0).conditionSet "b" 9).conditionAllow
        (mkEntry "j" [("a", -1), ("b", 1000)]) 5 =
      (NewDaemon.conditionSet "a" 0).conditionAllow (mkEntry "j" [("a", -1), ("b", 1000)]) 5 :=
  (gate_first_condition_only (NewDaemon.conditionSet "a" 0) (mkEntry "j" [("a", -1), ("b", 1000)])
    "a" (-1) [("b", 1000)] 5 rfl).2.2.2.2 ((NewDaemon.conditionSet "a" 0).conditionSet "b" 9)
      (by decide)

/-- C19. No event clears `running` or `stop`; so in every state reached after
a call of `Start`, whatever events followed it (`Stop` among them or not),
`running` is set and a further call of `Start` returns at once with the state
unchanged and evaluates no tick, whatever happens afterwards. -/
theorem flags_one_way (c : Collab) (s : State) (es : List Event) :
    (∀ (r : Run) (e : Event),
      (r.s.it.running = true → (Run.step c r e).s.it.running = true) ∧
      (r.s.it.stop = true → (Run.step c r e).s.it.stop = true)) ∧
    (Daemon.Start c s es).s.it.running = true ∧
    (s.it.stop = true → (Daemon.Start c s es).s.it.stop = true) ∧
    (startEntry (Daemon.Start c s es).s).s = (Daemon.Start c s es).s ∧
    (startEntry (Daemon.Start c s es).s).pc = Pc.done ∧
    (∀ es2, (Daemon.Start c (Daemon.Start c s es).s es2).pc = Pc.done ∧
      (Daemon.Start c (Daemon.Start c s es).s es2).ticks = []) := by
  have hrun : (Daemon.Start c s es).s.it.running = true :=
    (Run.exec_keeps_flags c (startEntry s) es).1 (startEntry_flags s).2.2.2.2.2
  have hpc : (startEntry (Daemon.Start c s es).s).pc = Pc.done := by
    simp [startEntry, hrun]
  have htk : (startEntry (Daemon.Start c s es).s).ticks = [] := by
    simp [startEntry, hrun]
  refine ⟨fun r e => Run.step_keeps_flags c r e, hrun, ?_,
    (startEntry_flags _).2.2.2.2.1 hrun, hpc, ?_⟩
  · intro hstop
    exact (Run.exec_keeps_flags c (startEntry s) es).2 (by rw [(startEntry_flags s).1]; exact hstop)
  · intro es2
    have hd := Run.exec_done c (startEntry (Daemon.Start c s es).s) es2 hpc
    exact ⟨hd.1, by rw [← htk]; exact hd.2⟩

/-- C19, on an example: `Start`, one tick, `Stop`, return; a second `Start`
with three steps of its own evaluates nothing. -/
theorem flags_one_way_witness :
    (Daemon.Start idCollab
      (Daemon.Start idCollab ⟨fun _ => mkEntry "a" [], { NewDaemon with jobs := [0] }⟩
        [Event.loop (fun _ => 0) 0, Event.loop (fun _ => 0) 1, Event.stop,
          Event.loop (fun _ => 0) 2]).s
      [Event.loop (fun _ => 0) 3, Event.loop (fun _ => 0) 4, Event.loop (fun _ => 0) 5]).ticks
      = [] :=
  ((flags_one_way idCollab ⟨fun _ => mkEntry "a" [], { NewDaemon with jobs := [0] }⟩
    [Event.loop (fun _ => 0) 0, Event.loop (fun _ => 0) 1, Event.stop,
      Event.loop (fun _ => 0) 2]).2.2.2.2.2
    [Event.loop (fun _ => 0) 3, Event.loop (fun _ => 0) 4, Event.loop (fun _ => 0) 5]).2

end injob
